import Mathlib

/-!
Shallow embedding of `src/generate-download-chart.js` (the chart-generation
pipeline of the obsidian-plugin-release-chart repository) together with
theorems settling the specification claims.

Modelling conventions:
* JS numbers carrying integer data (timestamps in ms, download counts,
  daily growth) are modelled as `Int`; the two places where JS performs a
  non-integer division before `Math.round` are modelled exactly in `ℚ`.
* A JS object literal is modelled as an association list in key-insertion
  order.  The history file is keyed by millisecond timestamps, which are
  not array-index strings, so `Object.entries` enumerates them in
  insertion order; the script re-sorts by date anyway.
* JS `Array.prototype.sort` (ES2019+) is a stable sort driven by a
  user comparator; for the consistent comparators used in the script it is
  modelled by the stable `List.insertionSort` with the total preorder
  `le a b := comparator a b ≤ 0` (any two stable sorts under the same
  total preorder agree, so the choice of algorithm is immaterial).
* `String.prototype.localeCompare` on the plain ASCII pre-release tags the
  script compares is modelled as code-point lexicographic comparison.
* Absent object fields are modelled as `Option.none`; the script's
  `x || 0` default is `Option.getD · 0` (the only falsy `Int` is `0`,
  which `|| 0` maps to `0` as well).
-/

namespace ReleaseChart

/-- Splits a character list at every occurrence of `sep`, JS
`String.prototype.split` style: the result is never empty, and empty
segments are kept (`"a..b".split "."` gives `["a", "", "b"]`). -/
def splitChar (sep : Char) : List Char → List (List Char)
  | [] => [[]]
  | c :: cs =>
    match splitChar sep cs with
    | [] => [[]]
    | s :: ss => if c = sep then [] :: s :: ss else (c :: s) :: ss

/-- Numeric value of a list of decimal digits. -/
def digitsToNat (l : List Char) : Nat :=
  l.foldl (fun acc c => acc * 10 + (c.toNat - '0'.toNat)) 0

/-- JS `parseInt(part, 10) || 0` on a string that contains no sign
character: skip leading whitespace, read the longest decimal-digit
prefix, and fall back to `0` when there is none (`parseInt` yields `NaN`
there, which `|| 0` turns into `0`). -/
def parseIntOr0 (l : List Char) : Int :=
  let t := l.dropWhile (fun c => c.isWhitespace)
  let digits := t.takeWhile (fun c => c.isDigit)
  if digits.isEmpty then 0 else (digitsToNat digits : Int)

/-- JS `Number(s) || 0` for the dot-separated fragments of a version key:
`Number` trims whitespace, maps the empty string to `0`, parses a pure
decimal numeral, and yields `NaN` on anything else; the `|| 0` fallback
then coerces `NaN` to `0`. -/
def jsNumberOr0 (l : List Char) : Int :=
  let t := (l.dropWhile (fun c => c.isWhitespace)).reverse
  let t := (t.dropWhile (fun c => c.isWhitespace)).reverse
  if t.isEmpty then 0
  else if t.all (fun c => c.isDigit) then (digitsToNat t : Int)
  else 0

/-- Comparison of an exhausted left operand against remaining right
components (each reading against `0` on the left): the value of
`cmpParts [] bs`. -/
def negCmpZeros : List Int → Int
  | [] => 0
  | b :: bs => if b ≠ 0 then -b else negCmpZeros bs

/-- First-difference comparison of two numeric component lists, missing
trailing components reading as `0`; returns the JS comparator value
`aPart - bPart` at the first differing position, `0` otherwise. -/
def cmpParts : List Int → List Int → Int
  | [], bs => negCmpZeros bs
  | a :: as, [] => if a ≠ 0 then a else cmpParts as []
  | a :: as, b :: bs => if a ≠ b then a - b else cmpParts as bs

/-- Code-point lexicographic string comparison, the model of
`localeCompare` on the ASCII pre-release tags compared by the script. -/
def strCmp : List Char → List Char → Int
  | [], [] => 0
  | [], _ :: _ => -1
  | _ :: _, [] => 1
  | a :: as, b :: bs => if a < b then -1 else if b < a then 1 else strCmp as bs

/-- JS `Math.round`: round to the nearest integer, halves toward `+∞`. -/
def jsRound (q : ℚ) : Int := ⌊q + 1 / 2⌋

/-- JS `Math.round(a / b)` for integers with `b > 0`, computed exactly in
integer arithmetic: `⌊a / b + 1 / 2⌋ = ⌊(2a + b) / (2b)⌋`. -/
def jsRoundDiv (a b : Int) : Int := (2 * a + b).fdiv (2 * b)

/-- One parsed data point (`dataPoints` element): date in ms, total
downloads, daily growth, and the version-count entries in key order. -/
structure DataPoint where
  date : Int
  downloads : Int
  dailyGrowth : Int
  versions : List (String × Int)
  deriving Repr, DecidableEq, Inhabited

/-- The history file: timestamp keys (already read as integers) mapped to
the per-snapshot record, an association list of field name to integer
value, in key-insertion order. -/
abbrev HistoryData : Type := List (Int × List (String × Int))

/-- Field lookup with the script's `|| 0` default. -/
def fieldOr0 (data : List (String × Int)) (key : String) : Int :=
  (data.lookup key).getD 0

/-- Builds one `dataPoints` element from a history entry (lines 39-52 of
the script): `downloads` and `dailyGrowth` default to `0`, and the
version map keeps every key other than the three reserved ones, in key
order. -/
def mkDataPoint (ts : Int) (data : List (String × Int)) : DataPoint :=
  { date := ts
    downloads := fieldOr0 data "downloads"
    dailyGrowth := fieldOr0 data "dailyGrowth"
    versions := data.filter (fun kv =>
      kv.1 ≠ "downloads" && kv.1 ≠ "updated" && kv.1 ≠ "dailyGrowth") }

/-- Date-ascending order used by `dataPoints.sort((a, b) => a.date - b.date)`. -/
def dateLe (a b : DataPoint) : Prop := a.date ≤ b.date

instance : DecidableRel dateLe := fun a b =>
  inferInstanceAs (Decidable (a.date ≤ b.date))

/-- The `dataPoints` array: every history entry parsed, then stably
sorted by date ascending (lines 38-53). -/
def dataPoints (h : HistoryData) : List DataPoint :=
  (h.map (fun e => mkDataPoint e.1 e.2)).insertionSort dateLe

/-- Model of line 93, `dataPoints[0].date.getTime()`: on an empty array
the JS property access `dataPoints[0].date` throws a `TypeError`, which
the embedding renders as `none`. -/
def oldestDate (pts : List DataPoint) : Option Int :=
  pts.head?.map (fun p => p.date)

/-- The `downloadCounts` array (line 86). -/
def downloadCounts (pts : List DataPoint) : List Int :=
  pts.map (fun p => p.downloads)

/-- The `derivativeData` array (lines 89-92), keeping the ms timestamp in
place of the ISO string: `(point.date, point.dailyGrowth || 0)`. -/
def derivativeData (pts : List DataPoint) : List (Int × Int) :=
  pts.map (fun p => (p.date, p.dailyGrowth))

/-- JS `s.split(/[-+]/)[0]`: the part of the identifier before the first
hyphen or plus sign. -/
def baseOf (s : String) : List Char :=
  s.toList.takeWhile (fun c => c ≠ '-' && c ≠ '+')

/-- Numeric components of the base part (`aBase.split(".").map(p => parseInt(p, 10) || 0)`). -/
def versionNumParts (s : String) : List Int :=
  (splitChar '.' (baseOf s)).map parseIntOr0

/-- JS `s.includes("-")`. -/
def hasPreReleaseTag (s : String) : Bool := s.toList.contains '-'

/-- JS `s.split("-")[1]`: the segment between the first and second hyphen
(the script only evaluates this when a hyphen is present). -/
def preReleaseTag (s : String) : List Char :=
  (splitChar '-' s.toList).getD 1 []

/-- The `compareVersions` helper (lines 127-157): numeric component-wise
comparison of the parts before any `-`/`+`, then the pre-release
tie-break, then `localeCompare` of the first hyphen-delimited tag. -/
def compareVersions (a b : String) : Int :=
  let c := cmpParts (versionNumParts a) (versionNumParts b)
  if c ≠ 0 then c
  else
    let aHas := hasPreReleaseTag a
    let bHas := hasPreReleaseTag b
    if !aHas && bHas then 1
    else if aHas && !bHas then -1
    else if !aHas && !bHas then 0
    else strCmp (preReleaseTag a) (preReleaseTag b)

/-- Components used by the inline comparator of the label scan (lines
63-65): the whole key split on dots, each fragment through `Number`,
`NaN`/missing falling back to `0` via `|| 0`. -/
def inlineParts (s : String) : List Int :=
  (splitChar '.' s.toList).map jsNumberOr0

/-- The inline comparator of lines 63-71: returns `bVal - aVal` at the
first differing component, i.e. a numerically descending order. -/
def inlineVersionCmp (a b : String) : Int :=
  cmpParts (inlineParts b) (inlineParts a)

/-- Numerically-descending order induced by the inline comparator. -/
def inlineLe (a b : String) : Prop := inlineVersionCmp a b ≤ 0

instance : DecidableRel inlineLe := fun a b =>
  inferInstanceAs (Decidable (inlineVersionCmp a b ≤ 0))

/-- JS `versions.sort(inline comparator)[0]` (lines 63-72): the head of
the stable descending sort, i.e. the first numerically-largest key. -/
def newestVersion (versions : List String) : Option String :=
  (versions.insertionSort inlineLe).head?

/-- One step of the mutable `currentVersion` scan (lines 58-82): when the
point lists versions, the tracker is replaced by the newest listed key
exactly when it is unset or its version is itself listed at this point. -/
def labelStep (cv : Option String) (p : DataPoint) : Option String :=
  let versions := p.versions.map (fun kv => kv.1)
  if versions.isEmpty then cv
  else
    match newestVersion versions, cv with
    | some newest, none => some newest
    | some newest, some v => if versions.contains v then some newest else some v
    | none, _ => cv

/-- The per-point `point.currentVersion` labels produced by the scan of
lines 57-82, in point order. -/
def currentVersionLabels (pts : List DataPoint) : List (Option String) :=
  (pts.foldl (fun acc p =>
      let cv := labelStep acc.1 p
      (cv, acc.2 ++ [cv])) ((none : Option String), ([] : List (Option String)))).2

/-- A `versionReleases` entry as pushed during discovery (lines 114-119). -/
structure ReleaseStub where
  version : String
  date : Int
  index : Nat
  downloads : Int
  deriving Repr, DecidableEq, Inhabited

/-- Processing of one data point during discovery (lines 101-122): each
version key not seen before is appended, carrying the point's index and
downloads; the first component accumulates the `processedVersions` set. -/
def discoverStep (acc : List String × List ReleaseStub) (ip : Nat × DataPoint) :
    List String × List ReleaseStub :=
  ip.2.versions.foldl (fun acc2 kv =>
    if acc2.1.contains kv.1 then acc2
    else (acc2.1 ++ [kv.1], acc2.2 ++ [⟨kv.1, ip.2.date, ip.1, ip.2.downloads⟩])) acc

/-- The `versionReleases` array right after discovery, in chronological
first-appearance order. -/
def discoveredReleases (pts : List DataPoint) : List ReleaseStub :=
  (pts.enum.foldl discoverStep ([], [])).2

/-- The comparator of line 160, `compareVersions(a.version, b.version)`,
as a sort precondition. -/
def releaseLe (a b : ReleaseStub) : Prop := compareVersions a.version b.version ≤ 0

instance : DecidableRel releaseLe := fun a b =>
  inferInstanceAs (Decidable (compareVersions a.version b.version ≤ 0))

/-- The `versionReleases` array after the semantic sort of line 160. -/
def sortedReleases (pts : List DataPoint) : List ReleaseStub :=
  (discoveredReleases pts).insertionSort releaseLe

/-- A `versionReleases` entry after the metrics pass added its fields. -/
structure ReleaseStats where
  version : String
  date : Int
  index : Nat
  downloads : Int
  endDownloads : Int
  downloadChange : Int
  durationDays : Int
  avgDailyGrowth : Int
  deriving Repr, DecidableEq, Inhabited

/-- The scan of lines 188-198: starting from `dataPoints.length`, keep
the smallest release index strictly greater than `startIndex`. -/
def nextChronoStartIndex (sorted : List ReleaseStub) (startIndex n : Nat) : Nat :=
  sorted.foldl (fun acc o => if startIndex < o.index ∧ o.index < acc then o.index else acc) n

/-- The metrics of lines 186-251 for a release that is not superseded at
its own index: boundary scan, end/change downloads with the out-of-range
fallbacks of lines 215-232, day-rounded duration floored at 1, and the
rounded average daily growth. -/
def normalStats (pts : List DataPoint) (sorted : List ReleaseStub) (r : ReleaseStub) :
    ReleaseStats :=
  let counts := downloadCounts pts
  let nextIdx := nextChronoStartIndex sorted r.index pts.length
  let lastIdx : Int := (nextIdx : Int) - 1
  let startDownloads := r.downloads
  let endDownloads :=
    if 0 ≤ lastIdx ∧ lastIdx < (counts.length : Int) then counts.getD lastIdx.toNat 0
    else if 0 < counts.length then counts.getD (counts.length - 1) 0
    else startDownloads
  let downloadChange := endDownloads - startDownloads
  let startDate := (pts.getD r.index default).date
  let endDate :=
    if 0 ≤ lastIdx ∧ lastIdx < (pts.length : Int) then (pts.getD lastIdx.toNat default).date
    else if 0 < pts.length then (pts.getD (pts.length - 1) default).date
    else startDate
  let durationMs := endDate - startDate
  let durationDays := max 1 (jsRoundDiv durationMs (1000 * 60 * 60 * 24))
  let avgDailyGrowth := jsRoundDiv downloadChange durationDays
  { version := r.version, date := r.date, index := r.index, downloads := r.downloads,
    endDownloads := endDownloads, downloadChange := downloadChange,
    durationDays := durationDays, avgDailyGrowth := avgDailyGrowth }

/-- The zero-impact assignment of lines 173-176 for a release superseded
at its own data point index. -/
def supersededStats (r : ReleaseStub) : ReleaseStats :=
  { version := r.version, date := r.date, index := r.index, downloads := r.downloads,
    endDownloads := r.downloads, downloadChange := 0, durationDays := 0, avgDailyGrowth := 0 }

/-- One iteration of the metrics loop (lines 163-251) at position `i` of
the semantically sorted release list. -/
def statsAt (pts : List DataPoint) (sorted : List ReleaseStub) (i : Nat) : ReleaseStats :=
  let r := sorted.getD i default
  if i + 1 < sorted.length ∧ (sorted.getD (i + 1) default).index = r.index then
    supersededStats r
  else normalStats pts sorted r

/-- The fully-computed `versionReleases` list, in semantic order. -/
def versionReleaseStats (pts : List DataPoint) : List ReleaseStats :=
  (List.range (sortedReleases pts).length).map (statsAt pts (sortedReleases pts))

/-- One iteration of the rolling-average loop at index `i`: average the
growth values of the slice `[max(0, i - w + 1), i]` (JS
`slice(startIdx, i + 1)`) and pair the rounded result with the point's
timestamp. -/
def rollingAverageAt (w : Nat) (deriv : List (Int × Int)) (i : Nat) : Int × Int :=
  let startIdx := i + 1 - w
  let windowValues := ((deriv.drop startIdx).take (i + 1 - startIdx)).map (fun it => it.2)
  let sum : Int := windowValues.foldl (fun acc v => acc + v) 0
  let avg := if 0 < windowValues.length then jsRoundDiv sum (windowValues.length : Int) else 0
  ((deriv.getD i default).1, avg)

/-- The rolling-average computation of lines 297-312 (and its 30-day
copy at lines 318-333), parameterised by the window size. -/
def rollingAverageData (w : Nat) (pts : List DataPoint) : List (Int × Int) :=
  (List.range (derivativeData pts).length).map (rollingAverageAt w (derivativeData pts))

/-- The `rollingAverageData7Day` array (lines 294-312). -/
def rollingAverageData7Day (pts : List DataPoint) : List (Int × Int) :=
  rollingAverageData 7 pts

/-- The `rollingAverageData30Day` array (lines 315-333). -/
def rollingAverageData30Day (pts : List DataPoint) : List (Int × Int) :=
  rollingAverageData 30 pts

/-- Sign of an integer comparator value, as an `Ordering`. -/
def intSign (i : Int) : Ordering :=
  if i < 0 then Ordering.lt else if 0 < i then Ordering.gt else Ordering.eq

/-- Pads a component list with zeros on the right up to length `n`. -/
def zeroExtend (n : Nat) (xs : List Int) : List Int :=
  xs ++ List.replicate (n - xs.length) 0

/-- Plain left-to-right lexicographic comparison of integer lists. -/
def lexCmpInt : List Int → List Int → Ordering
  | [], [] => Ordering.eq
  | [], _ :: _ => Ordering.lt
  | _ :: _, [] => Ordering.gt
  | a :: as, b :: bs =>
    if a < b then Ordering.lt else if b < a then Ordering.gt else lexCmpInt as bs

/-- Plain left-to-right lexicographic comparison of character lists. -/
def lexCmpChars : List Char → List Char → Ordering
  | [], [] => Ordering.eq
  | [], _ :: _ => Ordering.lt
  | _ :: _, [] => Ordering.gt
  | a :: as, b :: bs =>
    if a < b then Ordering.lt else if b < a then Ordering.gt else lexCmpChars as bs

/-- Numeric components of a version identifier as the specification
describes it: the dotted sequence before the pre-release suffix, i.e.
before the first hyphen. -/
def specVersionNums (s : String) : List Int :=
  (splitChar '.' (s.toList.takeWhile (fun c => c ≠ '-'))).map parseIntOr0

/-- Pre-release suffix of a version identifier as the specification
describes it: everything after the first hyphen, or `none` when the
identifier has no hyphen. -/
def specSuffix (s : String) : Option (List Char) :=
  match s.toList.dropWhile (fun c => c ≠ '-') with
  | [] => none
  | _ :: rest => some rest

/-- The version comparison of spec §3, stated from the claim's words:
numeric component-wise comparison of the dotted sequences with missing
trailing components as zero; when numerically equal, no suffix beats a
suffix; when both have suffixes, the suffixes compare lexicographically. -/
def specCompareVersions (a b : String) : Ordering :=
  let xs := specVersionNums a
  let ys := specVersionNums b
  let n := max xs.length ys.length
  match lexCmpInt (zeroExtend n xs) (zeroExtend n ys) with
  | Ordering.lt => Ordering.lt
  | Ordering.gt => Ordering.gt
  | Ordering.eq =>
    match specSuffix a, specSuffix b with
    | none, none => Ordering.eq
    | none, some _ => Ordering.gt
    | some _, none => Ordering.lt
    | some sa, some sb => lexCmpChars sa sb

/-- The next release boundary as the claim words it: the smallest
`firstSeenIndex` strictly greater than `k` among the releases `rs`,
defaulting to the series length `n` when none exists. -/
def specNextBoundary (rs : List ReleaseStub) (k n : Nat) : Nat :=
  ((rs.map (fun r => r.index)).filter (fun j => k < j)).foldr min n

/-- Version keys listed by one data point, in key order. -/
def versionsAt (p : DataPoint) : List String :=
  p.versions.map (fun kv => kv.1)

/-- All version keys listed by a sequence of data points, in order. -/
def seenVersions (pts : List DataPoint) : List String :=
  (pts.map versionsAt).flatten

/-- Tracker value sequence of the label scan: the labels produced by
folding `labelStep` through the points from a given tracker state. -/
def labelsFrom (cv : Option String) : List DataPoint → List (Option String)
  | [] => []
  | p :: rest =>
    let cv2 := labelStep cv p
    cv2 :: labelsFrom cv2 rest

/-- The label claim C8 describes for point `p`: among the discovered
releases whose active window (spec §4.3: from `firstSeenIndex` up to the
next chronological boundary minus one) includes `p`, the semantically
most recent one. -/
def claimActiveLabel (pts : List DataPoint) (p : Nat) : Option String :=
  let rs := discoveredReleases pts
  let covering := rs.filter (fun r =>
    r.index ≤ p ∧ p ≤ specNextBoundary rs r.index pts.length - 1)
  ((covering.insertionSort releaseLe).getLast?).map (fun r => r.version)

/-- Modelled from the spec: the Snapshot Extractor's anomaly filter
(spec §4.1; the extractor script `extract-plugin-stats.js` is not part
of `src/`).  Revisions are consumed in order; one lacking a counter is
skipped without emitting a snapshot, and one carrying a counter is
accepted exactly when no snapshot was accepted yet or its counter is at
least the last accepted counter; rejected counters do not update the
accepted baseline. -/
def acceptRevisions : List (Int × List (String × Int)) → Option Int → HistoryData
  | [], _ => []
  | (t, d) :: rest, base =>
    match d.lookup "downloads" with
    | none => acceptRevisions rest base
    | some c =>
      match base with
      | none => (t, d) :: acceptRevisions rest (some c)
      | some b =>
        if b ≤ c then (t, d) :: acceptRevisions rest (some c)
        else acceptRevisions rest base

/-- Two snapshots with increasing totals, no explicit `dailyGrowth`, one
version key each, listed in reverse chronological order. -/
def twoVersionHistory : HistoryData :=
  [(2, [("downloads", 150), ("2.0.0", 3)]),
   (1, [("downloads", 100), ("1.0.0", 5)])]

/-- Two versions first appearing together at the first snapshot, a
second snapshot one day later. -/
def sameIndexHistory : HistoryData :=
  [(0, [("downloads", 100), ("1.0.1", 5), ("1.0.2", 7)]),
   (86400000, [("downloads", 200), ("1.0.2", 9)])]

/-- Three snapshots with explicit growth values 10, 20, 30. -/
def growthHistory : HistoryData :=
  [(0, [("downloads", 10), ("dailyGrowth", 10)]),
   (1, [("downloads", 30), ("dailyGrowth", 20)]),
   (2, [("downloads", 60), ("dailyGrowth", 30)])]

/-- Revision sequence carrying the totals 100, 250, 90, 300 of the
spec's anomaly-filter example. -/
def anomalyRevisions : List (Int × List (String × Int)) :=
  [(1, [("downloads", 100)]), (2, [("downloads", 250)]),
   (3, [("downloads", 90)]), (4, [("downloads", 300)])]

/-- Two snapshots whose version listings are cumulative: the second
point lists the first point's version as well as a new one. -/
def cumulativeHistory : HistoryData :=
  [(1, [("downloads", 100), ("1.0.0", 5)]),
   (2, [("downloads", 150), ("1.0.0", 5), ("2.0.0", 3)])]

/-- A snapshot record with no fields at all followed by a plain one. -/
def missingFieldsHistory : HistoryData :=
  [(1, []), (2, [("downloads", 150)])]

/-- Two already-parsed data points whose version listings are
cumulative: the second lists the first point's version plus a new one. -/
def cumulativePts : List DataPoint :=
  [⟨1, 100, 0, [("1.0.0", 5)]⟩, ⟨2, 150, 0, [("1.0.0", 5), ("2.0.0", 3)]⟩]

/-! ### Supporting lemmas -/

theorem jsRoundDiv_eq_jsRound (a b : Int) (hb : 0 < b) :
    jsRoundDiv a b = jsRound ((a : ℚ) / (b : ℚ)) := by
  unfold jsRoundDiv jsRound
  rw [Int.fdiv_eq_ediv _ (by omega)]
  have hb0 : ((b : Int) : ℚ) ≠ 0 := by
    exact_mod_cast (by omega : (b : Int) ≠ 0)
  have hsum : (a : ℚ) / (b : ℚ) + 1 / 2 = ((2 * a + b : Int) : ℚ) / (((2 * b : Int).toNat : ℕ) : ℚ) := by
    have h2b : (((2 * b : Int).toNat : ℕ) : ℚ) = ((2 * b : Int) : ℚ) := by
      have : ((2 * b : Int).toNat : Int) = 2 * b := Int.toNat_of_nonneg (by omega)
      exact_mod_cast congrArg (fun z : Int => (z : ℚ)) this
    rw [h2b]
    push_cast
    field_simp
    ring
  rw [hsum, Rat.floor_intCast_div_natCast]
  have htn : ((2 * b : Int).toNat : Int) = 2 * b := Int.toNat_of_nonneg (by omega)
  rw [htn]

theorem cmpParts_nil_left (bs : List Int) : cmpParts [] bs = negCmpZeros bs := rfl

theorem negCmpZeros_eq (bs : List Int) : negCmpZeros bs = -cmpParts bs [] := by
  induction bs with
  | nil => simp [negCmpZeros, cmpParts]
  | cons b bs ih =>
    simp only [negCmpZeros, cmpParts]
    by_cases h : b = 0 <;> simp [h, ih]

theorem cmpParts_self (x : List Int) : cmpParts x x = 0 := by
  induction x with
  | nil => simp [cmpParts, negCmpZeros]
  | cons a as ih => simp [cmpParts, ih]

theorem cmpParts_comm (x y : List Int) : cmpParts x y = -cmpParts y x := by
  induction x generalizing y with
  | nil =>
    cases y with
    | nil => simp [cmpParts, negCmpZeros]
    | cons b bs => simp [cmpParts, negCmpZeros_eq]
  | cons a as ih =>
    cases y with
    | nil => simp [cmpParts, negCmpZeros_eq]
    | cons b bs =>
      simp only [cmpParts]
      by_cases h : a = b
      · simp [h, ih bs]
      · have h2 : ¬b = a := fun hba => h hba.symm
        simp [h, h2]

theorem cmpParts_replicate_zero_left (y : List Int) :
    ∀ k, cmpParts (List.replicate k 0) y = cmpParts [] y := by
  induction y with
  | nil =>
    intro k
    induction k with
    | zero => rfl
    | succ j ihk =>
      simp only [List.replicate, cmpParts, ne_eq, not_true_eq_false, if_neg,
        not_false_eq_true, ite_self]
      simpa using ihk
  | cons b bs ih =>
    intro k
    cases k with
    | zero => rfl
    | succ j =>
      simp only [List.replicate, cmpParts, cmpParts_nil_left, negCmpZeros]
      by_cases h : b = 0
      · simp only [h, ite_self, if_neg (by simp : ¬(0 : Int) ≠ 0)]
        rw [ih j, cmpParts_nil_left]
      · have h2 : (0 : Int) ≠ b := fun hb => h hb.symm
        simp [h, h2]

theorem cmpParts_append_zeros_left (x y : List Int) (k : Nat) :
    cmpParts (x ++ List.replicate k 0) y = cmpParts x y := by
  induction x generalizing y with
  | nil => simpa using cmpParts_replicate_zero_left y k
  | cons a as ih =>
    cases y with
    | nil =>
      simp only [List.cons_append, cmpParts]
      by_cases h : a = 0 <;> simp [h, ih []]
    | cons b bs =>
      simp only [List.cons_append, cmpParts]
      by_cases h : a = b <;> simp [h, ih bs]

theorem cmpParts_append_zeros_right (x y : List Int) (k : Nat) :
    cmpParts x (y ++ List.replicate k 0) = cmpParts x y := by
  rw [cmpParts_comm, cmpParts_append_zeros_left, ← cmpParts_comm]

set_option linter.unusedTactic false in
theorem cmpParts_trans_eqlen :
    ∀ (x y z : List Int), x.length = y.length → y.length = z.length →
      cmpParts x y ≤ 0 → cmpParts y z ≤ 0 → cmpParts x z ≤ 0 := by
  intro x
  induction x with
  | nil =>
    intro y z hxy hyz _ hbc
    cases y with
    | nil => exact hbc
    | cons b bs => simp at hxy
  | cons a as ih =>
    intro y z hxy hyz hab hbc
    cases y with
    | nil => simp at hxy
    | cons b bs =>
      cases z with
      | nil => simp at hyz
      | cons c cs =>
        simp only [cmpParts] at hab hbc ⊢
        split_ifs at hab hbc ⊢ <;>
          simp only [ne_eq, not_not] at * <;>
          first
          | omega
          | (exfalso; omega)
          | exact ih bs cs (by simpa using hxy) (by simpa using hyz) hab hbc

theorem cmpParts_le_trans {x y z : List Int}
    (hxy : cmpParts x y ≤ 0) (hyz : cmpParts y z ≤ 0) : cmpParts x z ≤ 0 := by
  set n := max (max x.length y.length) z.length with hn
  have hx : x.length ≤ n := by omega
  have hy : y.length ≤ n := by omega
  have hz : z.length ≤ n := by omega
  have ex : (x ++ List.replicate (n - x.length) 0).length = n := by
    simp; omega
  have ey : (y ++ List.replicate (n - y.length) 0).length = n := by
    simp; omega
  have ez : (z ++ List.replicate (n - z.length) 0).length = n := by
    simp; omega
  have h1 : cmpParts (x ++ List.replicate (n - x.length) 0)
      (y ++ List.replicate (n - y.length) 0) ≤ 0 := by
    rwa [cmpParts_append_zeros_left, cmpParts_append_zeros_right]
  have h2 : cmpParts (y ++ List.replicate (n - y.length) 0)
      (z ++ List.replicate (n - z.length) 0) ≤ 0 := by
    rwa [cmpParts_append_zeros_left, cmpParts_append_zeros_right]
  have h3 := cmpParts_trans_eqlen _ _ _ (ex.trans ey.symm) (ey.trans ez.symm) h1 h2
  rwa [cmpParts_append_zeros_left, cmpParts_append_zeros_right] at h3

theorem cmpParts_le_total (x y : List Int) :
    cmpParts x y ≤ 0 ∨ cmpParts y x ≤ 0 := by
  have := cmpParts_comm x y
  omega

theorem strCmp_lex (u : List Char) : ∀ v, intSign (strCmp u v) = lexCmpChars u v := by
  induction u with
  | nil =>
    intro v
    cases v with
    | nil => simp [strCmp, lexCmpChars, intSign]
    | cons b bs => simp [strCmp, lexCmpChars, intSign]
  | cons a as ih =>
    intro v
    cases v with
    | nil => simp [strCmp, lexCmpChars, intSign]
    | cons b bs =>
      simp only [strCmp, lexCmpChars]
      by_cases h1 : a < b
      · simp [h1, intSign]
      · by_cases h2 : b < a
        · simp [h1, h2, intSign]
        · simp [h1, h2, ih bs]

theorem cmpParts_eqlen_lex :
    ∀ (x y : List Int), x.length = y.length → intSign (cmpParts x y) = lexCmpInt x y := by
  intro x
  induction x with
  | nil =>
    intro y h
    cases y with
    | nil => simp [cmpParts, negCmpZeros, lexCmpInt, intSign]
    | cons b bs => simp at h
  | cons a as ih =>
    intro y h
    cases y with
    | nil => simp at h
    | cons b bs =>
      simp only [cmpParts, lexCmpInt]
      rcases lt_trichotomy a b with hab | hab | hab
      · have h1 : a ≠ b := by omega
        have h2 : a - b < 0 := by omega
        rw [if_pos h1, if_pos hab]
        simp [intSign, h2]
      · subst hab
        have h1 : ¬a ≠ a := by simp
        have h2 : ¬a < a := by omega
        rw [if_neg h1, if_neg h2, if_neg h2]
        exact ih bs (by simpa using h)
      · have h1 : a ≠ b := by omega
        have h2 : ¬a < b := by omega
        have h3 : ¬a - b < 0 := by omega
        have h4 : 0 < a - b := by omega
        rw [if_pos h1, if_neg h2, if_pos hab]
        simp [intSign, h3, h4]

theorem cmpParts_lex_zeroExtend (x y : List Int) :
    intSign (cmpParts x y) =
      lexCmpInt (zeroExtend (max x.length y.length) x)
        (zeroExtend (max x.length y.length) y) := by
  have hx : x.length ≤ max x.length y.length := le_max_left _ _
  have hy : y.length ≤ max x.length y.length := le_max_right _ _
  have hpad : cmpParts x y =
      cmpParts (zeroExtend (max x.length y.length) x)
        (zeroExtend (max x.length y.length) y) := by
    unfold zeroExtend
    rw [cmpParts_append_zeros_left, cmpParts_append_zeros_right]
  rw [hpad]
  apply cmpParts_eqlen_lex
  unfold zeroExtend
  simp only [List.length_append, List.length_replicate]
  omega

instance : IsTrans String inlineLe :=
  ⟨fun _ _ _ hab hbc => cmpParts_le_trans hbc hab⟩

instance : IsTotal String inlineLe :=
  ⟨fun a b => cmpParts_le_total (inlineParts b) (inlineParts a)⟩

theorem newestVersion_of_ne_nil {l : List String} (h : l ≠ []) :
    ∃ m, newestVersion l = some m := by
  unfold newestVersion
  cases hs : l.insertionSort inlineLe with
  | nil =>
    have := List.length_insertionSort inlineLe l
    rw [hs] at this
    exact absurd (List.length_eq_zero.mp this.symm) h
  | cons s rest => exact ⟨s, rfl⟩

theorem newestVersion_mem {l : List String} {m : String}
    (h : newestVersion l = some m) : m ∈ l := by
  unfold newestVersion at h
  have hmem : m ∈ l.insertionSort inlineLe := by
    cases hs : l.insertionSort inlineLe with
    | nil => rw [hs] at h; exact absurd h (by simp)
    | cons s rest =>
      rw [hs] at h
      simp only [List.head?] at h
      exact (Option.some.inj h) ▸ List.mem_cons_self s rest
  exact (List.mem_insertionSort inlineLe).mp hmem

theorem inlineVersionCmp_self (a : String) : inlineVersionCmp a a = 0 :=
  cmpParts_self (inlineParts a)

theorem newestVersion_max {l : List String} {m : String}
    (h : newestVersion l = some m) : ∀ u ∈ l, inlineVersionCmp m u ≤ 0 := by
  intro u hu
  have hsort : (l.insertionSort inlineLe).Sorted inlineLe :=
    List.sorted_insertionSort inlineLe l
  unfold newestVersion at h
  cases hs : l.insertionSort inlineLe with
  | nil => rw [hs] at h; exact absurd h (by simp)
  | cons s rest =>
    rw [hs] at h hsort
    simp only [List.head?] at h
    have hm : s = m := Option.some.inj h
    subst hm
    have hu2 : u ∈ s :: rest := by
      rw [← hs]
      exact (List.mem_insertionSort inlineLe).mpr hu
    rcases List.mem_cons.mp hu2 with rfl | hu3
    · simp [inlineVersionCmp_self]
    · exact List.rel_of_sorted_cons hsort u hu3

theorem seenVersions_append (l1 l2 : List DataPoint) :
    seenVersions (l1 ++ l2) = seenVersions l1 ++ seenVersions l2 := by
  simp [seenVersions]

theorem seenVersions_singleton (p : DataPoint) : seenVersions [p] = versionsAt p := by
  simp [seenVersions]

theorem currentVersionLabels_eq_labelsFrom (pts : List DataPoint) :
    currentVersionLabels pts = labelsFrom none pts := by
  have key : ∀ (l : List DataPoint) (cv : Option String) (out : List (Option String)),
      l.foldl (fun acc p =>
        let cv2 := labelStep acc.1 p
        (cv2, acc.2 ++ [cv2])) (cv, out) = (l.foldl labelStep cv, out ++ labelsFrom cv l) := by
    intro l
    induction l with
    | nil => intro cv out; simp [labelsFrom]
    | cons p rest ih =>
      intro cv out
      simp only [List.foldl_cons, labelsFrom]
      rw [ih]
      simp
  unfold currentVersionLabels
  rw [key]
  simp

theorem labelsFrom_getD :
    ∀ (l : List DataPoint) (cv : Option String) (i : Nat), i < l.length →
      (labelsFrom cv l).getD i none = (l.take (i + 1)).foldl labelStep cv := by
  intro l
  induction l with
  | nil => intro cv i hi; simp at hi
  | cons p rest ih =>
    intro cv i hi
    cases i with
    | zero => simp [labelsFrom]
    | succ j =>
      simp only [labelsFrom, List.take_succ_cons, List.foldl_cons, List.getD_cons_succ]
      exact ih (labelStep cv p) j (by simpa using hi)

theorem labelStep_of_empty {p : DataPoint} (hvp : versionsAt p = []) (cv : Option String) :
    labelStep cv p = cv := by
  unfold labelStep
  rw [show p.versions.map (fun kv => kv.1) = versionsAt p from rfl, hvp]
  simp

theorem trackerInvariant :
    ∀ (l : List DataPoint),
      (∀ l1 p l2, l = l1 ++ p :: l2 → versionsAt p ≠ [] →
        ∀ v ∈ seenVersions l1, v ∈ versionsAt p) →
      ((l.foldl labelStep none = none → seenVersions l = []) ∧
        (∀ v, l.foldl labelStep none = some v →
          v ∈ seenVersions l ∧ ∀ u ∈ seenVersions l, inlineVersionCmp v u ≤ 0)) := by
  intro l
  induction l using List.reverseRecOn with
  | nil =>
    intro _
    exact ⟨fun _ => rfl, fun v hv => absurd hv (by simp)⟩
  | append_singleton l' p ih =>
    intro hcum
    have hcum' : ∀ l1 q l2, l' = l1 ++ q :: l2 → versionsAt q ≠ [] →
        ∀ v ∈ seenVersions l1, v ∈ versionsAt q := by
      intro l1 q l2 heq
      exact hcum l1 q (l2 ++ [p]) (by rw [heq]; simp)
    obtain ⟨ihnone, ihsome⟩ := ih hcum'
    rw [List.foldl_append, seenVersions_append, seenVersions_singleton]
    simp only [List.foldl_cons, List.foldl_nil]
    by_cases hvp : versionsAt p = []
    · rw [labelStep_of_empty hvp, hvp, List.append_nil]
      exact ⟨ihnone, ihsome⟩
    · have hsub : ∀ v ∈ seenVersions l', v ∈ versionsAt p :=
        hcum l' p [] (by simp) hvp
      obtain ⟨m, hm⟩ := newestVersion_of_ne_nil hvp
      have hstep : ∀ cv, (cv = none ∨ ∃ v, cv = some v ∧ v ∈ versionsAt p) →
          labelStep cv p = some m := by
        intro cv hcv
        unfold labelStep
        rw [show p.versions.map (fun kv => kv.1) = versionsAt p from rfl]
        rw [if_neg (by simpa using hvp)]
        rw [hm]
        rcases hcv with rfl | ⟨v, rfl, hv1⟩
        · rfl
        · have hv2 : (versionsAt p).contains v = true := List.elem_iff.mpr hv1
          simp only [hv2, if_true]
      have hcase : l'.foldl labelStep none = none ∨
          ∃ v, l'.foldl labelStep none = some v ∧ v ∈ versionsAt p := by
        cases hcv : l'.foldl labelStep none with
        | none => exact Or.inl rfl
        | some v => exact Or.inr ⟨v, rfl, hsub v ((ihsome v hcv).1)⟩
      rw [hstep _ hcase]
      constructor
      · intro hfalse
        exact absurd hfalse (by simp)
      · intro v hv
        have hmv : m = v := by simpa using hv
        subst hmv
        refine ⟨List.mem_append.mpr (Or.inr (newestVersion_mem hm)), ?_⟩
        intro u hu
        rcases List.mem_append.mp hu with hul | hur
        · exact newestVersion_max hm u (hsub u hul)
        · exact newestVersion_max hm u hur

theorem discover_inner_mem :
    ∀ (vs : List (String × Int)) (d : Int) (i : Nat) (dl : Int)
      (acc : List String × List ReleaseStub) (r : ReleaseStub),
      r ∈ ((vs.foldl (fun acc2 kv =>
        if acc2.1.contains kv.1 then acc2
        else (acc2.1 ++ [kv.1], acc2.2 ++ [⟨kv.1, d, i, dl⟩])) acc).2) →
      r ∈ acc.2 ∨ r.index = i := by
  intro vs
  induction vs with
  | nil => intro d i dl acc r h; exact Or.inl h
  | cons kv vs ih =>
    intro d i dl acc r h
    simp only [List.foldl_cons] at h
    by_cases hc : acc.1.contains kv.1 = true
    · rw [if_pos hc] at h
      exact ih d i dl acc r h
    · rw [if_neg hc] at h
      rcases ih d i dl _ r h with h2 | h2
      · rcases List.mem_append.mp h2 with h3 | h3
        · exact Or.inl h3
        · right
          have : r = (⟨kv.1, d, i, dl⟩ : ReleaseStub) := by simpa using h3
          rw [this]
      · exact Or.inr h2

theorem discoveredReleases_index_lt (pts : List DataPoint) :
    ∀ r ∈ discoveredReleases pts, r.index < pts.length := by
  unfold discoveredReleases
  have key : ∀ (l : List (Nat × DataPoint)) (acc : List String × List ReleaseStub),
      (∀ r ∈ acc.2, r.index < pts.length) →
      (∀ ip ∈ l, ip.1 < pts.length) →
      ∀ r ∈ (l.foldl discoverStep acc).2, r.index < pts.length := by
    intro l
    induction l with
    | nil => intro acc hacc _ r hr; exact hacc r hr
    | cons ip l ih =>
      intro acc hacc hl r hr
      simp only [List.foldl_cons] at hr
      refine ih (discoverStep acc ip) ?_ (fun q hq => hl q (List.mem_cons_of_mem _ hq)) r hr
      intro q hq
      unfold discoverStep at hq
      rcases discover_inner_mem ip.2.versions ip.2.date ip.1 ip.2.downloads acc q hq with h | h
      · exact hacc q h
      · rw [h]
        exact hl ip (List.mem_cons_self _ _)
  intro r hr
  refine key pts.enum ([], []) (by simp) ?_ r hr
  intro ip hip
  have hg := List.mem_enum_iff_getElem?.mp hip
  by_contra hge
  rw [List.getElem?_eq_none (by omega)] at hg
  exact Option.noConfusion hg

theorem nextChrono_eq_filter_fold (rs : List ReleaseStub) (k : Nat) :
    ∀ n, nextChronoStartIndex rs k n =
      ((rs.map (fun r => r.index)).filter (fun j => k < j)).foldl
        (fun acc j => if j < acc then j else acc) n := by
  induction rs with
  | nil => intro n; rfl
  | cons r rs ih =>
    intro n
    unfold nextChronoStartIndex at *
    simp only [List.foldl_cons, List.map_cons]
    by_cases hk : k < r.index
    · rw [List.filter_cons_of_pos (by simpa using hk)]
      simp only [List.foldl_cons]
      rw [show (if k < r.index ∧ r.index < n then r.index else n)
          = (if r.index < n then r.index else n) from by simp [hk]]
      exact ih _
    · rw [List.filter_cons_of_neg (by simpa using hk)]
      rw [show (if k < r.index ∧ r.index < n then r.index else n) = n from by simp [hk]]
      exact ih n

theorem foldr_min_init (l : List Nat) :
    ∀ a b : Nat, l.foldr min (min a b) = min b (l.foldr min a) := by
  induction l with
  | nil => intro a b; exact Nat.min_comm a b
  | cons c l ih =>
    intro a b
    simp only [List.foldr_cons]
    rw [ih a b]
    exact min_left_comm c b (l.foldr min a)

theorem foldl_min_eq_foldr_min : ∀ (l : List Nat) (n : Nat),
    l.foldl (fun acc j => if j < acc then j else acc) n = l.foldr min n := by
  intro l
  induction l with
  | nil => intro n; rfl
  | cons j l ih =>
    intro n
    simp only [List.foldl_cons, List.foldr_cons]
    have hmin : (if j < n then j else n) = min n j := by
      rcases Nat.lt_or_ge j n with h | h
      · have h2 : ¬n ≤ j := by omega
        simp [Nat.min_def, h, h2]
      · have h2 : ¬j < n := by omega
        simp [Nat.min_def, h, h2]
    rw [hmin, ih (min n j), foldr_min_init l n j]

theorem foldr_min_le_init (l : List Nat) (n : Nat) : l.foldr min n ≤ n := by
  induction l with
  | nil => exact le_refl n
  | cons c l ih =>
    simp only [List.foldr_cons]
    exact le_trans (Nat.min_le_right _ _) ih

theorem foldr_min_le_mem (l : List Nat) (n : Nat) : ∀ j ∈ l, l.foldr min n ≤ j := by
  induction l with
  | nil => intro j hj; exact absurd hj (by simp)
  | cons c l ih =>
    intro j hj
    simp only [List.foldr_cons]
    rcases List.mem_cons.mp hj with rfl | hj2
    · exact Nat.min_le_left _ _
    · exact le_trans (Nat.min_le_right _ _) (ih j hj2)

theorem foldr_min_mem_or (l : List Nat) (n : Nat) :
    l.foldr min n = n ∨ l.foldr min n ∈ l := by
  induction l with
  | nil => exact Or.inl rfl
  | cons c l ih =>
    simp only [List.foldr_cons]
    rcases min_choice c (l.foldr min n) with h | h
    · rw [h]; exact Or.inr (List.mem_cons_self _ _)
    · rw [h]
      rcases ih with h2 | h2
      · exact Or.inl h2
      · exact Or.inr (List.mem_cons_of_mem _ h2)

theorem nextChrono_sorted_eq_spec (pts : List DataPoint) (k n : Nat) :
    nextChronoStartIndex (sortedReleases pts) k n =
      specNextBoundary (discoveredReleases pts) k n := by
  rw [nextChrono_eq_filter_fold, foldl_min_eq_foldr_min]
  unfold specNextBoundary
  have hperm : List.Perm
      (((sortedReleases pts).map (fun r => r.index)).filter (fun j => k < j))
      (((discoveredReleases pts).map (fun r => r.index)).filter (fun j => k < j)) :=
    ((List.perm_insertionSort releaseLe (discoveredReleases pts)).map _).filter _
  exact hperm.foldr_eq' (fun x _ y _ z => min_left_comm y x z) n

theorem getD_range_map {α : Type} (f : Nat → α) (n i : Nat) (hi : i < n) (d : α) :
    ((List.range n).map f).getD i d = f i := by
  rw [List.getD_eq_getElem?_getD, List.getElem?_map, List.getElem?_range hi]
  rfl

theorem foldl_add_int (l : List Int) : ∀ a : Int, l.foldl (fun x y => x + y) a = a + l.sum := by
  induction l with
  | nil => intro a; simp
  | cons c l ih =>
    intro a
    simp only [List.foldl_cons, List.sum_cons]
    rw [ih]
    ring

theorem slice_sum_eq (g : DataPoint → Int) :
    ∀ (k s : Nat) (l : List DataPoint), s + k ≤ l.length →
      (((l.drop s).take k).map g).sum =
        ∑ j ∈ Finset.range k, g (l.getD (s + j) default) := by
  intro k
  induction k with
  | zero => intro s l _; simp
  | succ k ih =>
    intro s l hsk
    have hs : s < l.length := by omega
    rw [List.drop_eq_getElem_cons hs]
    simp only [List.take_succ_cons, List.map_cons, List.sum_cons]
    rw [ih (s + 1) l (by omega)]
    rw [Finset.sum_range_succ']
    have h0 : l.getD (s + 0) default = l[s] := by
      rw [List.getD_eq_getElem l default (by omega)]
      simp
    have hshift : ∑ i ∈ Finset.range k, g (l.getD (s + 1 + i) default)
        = ∑ i ∈ Finset.range k, g (l.getD (s + (i + 1)) default) :=
      Finset.sum_congr rfl (fun i _ => by
        rw [show s + 1 + i = s + (i + 1) from by omega])
    rw [h0, hshift]
    ring

theorem splitChar_of_not_mem {sep : Char} :
    ∀ {l : List Char}, sep ∉ l → splitChar sep l = [l] := by
  intro l
  induction l with
  | nil => intro _; rfl
  | cons c cs ih =>
    intro h
    have hc : ¬c = sep := fun he => h (he ▸ List.mem_cons_self c cs)
    have hcs : sep ∉ cs := fun hm => h (List.mem_cons_of_mem _ hm)
    unfold splitChar
    rw [ih hcs]
    simp [hc]

theorem splitChar_cons (sep c : Char) (cs : List Char) :
    splitChar sep (c :: cs) =
      match splitChar sep cs with
      | [] => [[]]
      | s :: ss => if c = sep then [] :: s :: ss else (c :: s) :: ss := rfl

theorem splitChar_ne_nil (sep : Char) : ∀ l : List Char, splitChar sep l ≠ [] := by
  intro l
  cases l with
  | nil => simp [splitChar]
  | cons c cs =>
    rw [splitChar_cons]
    cases splitChar sep cs with
    | nil => simp
    | cons s ss => by_cases h : c = sep <;> simp [h]

theorem splitChar_append {sep : Char} :
    ∀ (u v : List Char), sep ∉ u →
      splitChar sep (u ++ sep :: v) = u :: splitChar sep v := by
  intro u
  induction u with
  | nil =>
    intro v _
    obtain ⟨s, ss, hsv⟩ : ∃ s ss, splitChar sep v = s :: ss := by
      cases h : splitChar sep v with
      | nil => exact absurd h (splitChar_ne_nil sep v)
      | cons s ss => exact ⟨s, ss, rfl⟩
    show splitChar sep (sep :: v) = [] :: splitChar sep v
    rw [splitChar_cons, hsv]
    simp
  | cons c u ih =>
    intro v h
    have hc : ¬c = sep := fun he => h (he ▸ List.mem_cons_self c u)
    have hu : sep ∉ u := fun hm => h (List.mem_cons_of_mem _ hm)
    show splitChar sep (c :: (u ++ sep :: v)) = (c :: u) :: splitChar sep v
    rw [splitChar_cons, ih v hu]
    simp [hc]

theorem hyphen_decomp :
    ∀ (l : List Char), l.count '-' ≤ 1 → '-' ∈ l →
      ∃ u v, l = u ++ '-' :: v ∧ '-' ∉ u ∧ '-' ∉ v ∧
        splitChar '-' l = [u, v] ∧
        l.dropWhile (fun c => c ≠ '-') = '-' :: v ∧
        l.takeWhile (fun c => c ≠ '-') = u := by
  intro l
  induction l with
  | nil => intro _ hm; exact absurd hm (by simp)
  | cons c cs ih =>
    intro hcount hmem
    by_cases hc : c = '-'
    · subst hc
      have hcs : '-' ∉ cs := by
        have : cs.count '-' = 0 := by
          have := List.count_cons_self '-' cs
          omega
        exact List.count_eq_zero.mp this
      refine ⟨[], cs, by simp, by simp, hcs, ?_, ?_, ?_⟩
      · show splitChar '-' ('-' :: cs) = [[], cs]
        rw [splitChar_cons, splitChar_of_not_mem hcs]
        simp
      · simp [List.dropWhile]
      · simp [List.takeWhile]
    · have hmem2 : '-' ∈ cs := by
        rcases List.mem_cons.mp hmem with h | h
        · exact absurd h.symm hc
        · exact h
      have hcount2 : cs.count '-' ≤ 1 := by
        have := List.count_cons '-' c cs
        omega
      obtain ⟨u, v, heq, hu, hv, hsplit, hdrop, htake⟩ := ih hcount2 hmem2
      refine ⟨c :: u, v, by rw [heq]; rfl, ?_, hv, ?_, ?_, ?_⟩
      · intro hmu
        rcases List.mem_cons.mp hmu with h | h
        · exact hc h.symm
        · exact hu h
      · show splitChar '-' (c :: cs) = [c :: u, v]
        rw [splitChar_cons, hsplit]
        simp [hc]
      · simp only [List.dropWhile]
        have : (decide ¬c = '-') = true := by simp [hc]
        rw [this]
        exact hdrop
      · simp only [List.takeWhile]
        have : (decide ¬c = '-') = true := by simp [hc]
        rw [this, htake]

theorem takeWhile_no_plus :
    ∀ (l : List Char), '+' ∉ l →
      l.takeWhile (fun c => c ≠ '-' && c ≠ '+') = l.takeWhile (fun c => c ≠ '-') := by
  intro l
  induction l with
  | nil => intro _; rfl
  | cons c cs ih =>
    intro h
    have hc : ¬c = '+' := fun he => h (he ▸ List.mem_cons_self c cs)
    have hcs : '+' ∉ cs := fun hm => h (List.mem_cons_of_mem _ hm)
    simp only [List.takeWhile]
    by_cases hd : c = '-'
    · simp [hd]
    · have h1 : (decide ¬c = '-' && decide ¬c = '+') = true := by simp [hd, hc]
      have h2 : (decide ¬c = '-') = true := by simp [hd]
      rw [h1, h2, ih hcs]

theorem specSuffix_of_no_hyphen {s : String} (h : '-' ∉ s.toList) :
    specSuffix s = none := by
  unfold specSuffix
  rw [List.dropWhile_eq_nil_iff.mpr (fun x hx => by
    simp only [ne_eq, decide_eq_true_eq]
    exact fun he => h (he ▸ hx))]

theorem hasPreReleaseTag_true_iff (s : String) :
    hasPreReleaseTag s = true ↔ '-' ∈ s.toList := by
  unfold hasPreReleaseTag
  exact List.elem_iff

theorem compareVersions_agrees_spec (a b : String)
    (ha1 : a.toList.count '-' ≤ 1) (ha2 : '+' ∉ a.toList)
    (hb1 : b.toList.count '-' ≤ 1) (hb2 : '+' ∉ b.toList) :
    intSign (compareVersions a b) = specCompareVersions a b := by
  have hnumsa : versionNumParts a = specVersionNums a := by
    unfold versionNumParts specVersionNums baseOf
    rw [takeWhile_no_plus _ ha2]
  have hnumsb : versionNumParts b = specVersionNums b := by
    unfold versionNumParts specVersionNums baseOf
    rw [takeWhile_no_plus _ hb2]
  have hlex : lexCmpInt
      (zeroExtend (max (specVersionNums a).length (specVersionNums b).length)
        (specVersionNums a))
      (zeroExtend (max (specVersionNums a).length (specVersionNums b).length)
        (specVersionNums b))
      = intSign (cmpParts (specVersionNums a) (specVersionNums b)) :=
    (cmpParts_lex_zeroExtend _ _).symm
  simp only [compareVersions, specCompareVersions]
  rw [hnumsa, hnumsb, hlex]
  set c := cmpParts (specVersionNums a) (specVersionNums b) with hc
  rcases lt_trichotomy c 0 with hlt | hzero | hgt
  · rw [if_pos (by omega : c ≠ 0)]
    simp [intSign, hlt]
  · rw [if_neg (by omega : ¬c ≠ 0)]
    have hsign : intSign c = Ordering.eq := by
      simp [intSign, hzero]
    rw [hsign]
    by_cases hA : '-' ∈ a.toList <;> by_cases hB : '-' ∈ b.toList
    · obtain ⟨ua, va, _, _, _, hasplit, hadrop, _⟩ := hyphen_decomp a.toList ha1 hA
      obtain ⟨ub, vb, _, _, _, hbsplit, hbdrop, _⟩ := hyphen_decomp b.toList hb1 hB
      have hAt : hasPreReleaseTag a = true := (hasPreReleaseTag_true_iff a).mpr hA
      have hBt : hasPreReleaseTag b = true := (hasPreReleaseTag_true_iff b).mpr hB
      rw [hAt, hBt]
      simp only [Bool.not_true, Bool.false_and, Bool.and_false, if_neg (by simp : ¬False)]
      have hsa : specSuffix a = some va := by
        unfold specSuffix
        rw [hadrop]
      have hsb : specSuffix b = some vb := by
        unfold specSuffix
        rw [hbdrop]
      rw [hsa, hsb]
      have hta : preReleaseTag a = va := by
        unfold preReleaseTag
        rw [hasplit]
        rfl
      have htb : preReleaseTag b = vb := by
        unfold preReleaseTag
        rw [hbsplit]
        rfl
      rw [hta, htb]
      exact strCmp_lex va vb
    · have hAt : hasPreReleaseTag a = true := (hasPreReleaseTag_true_iff a).mpr hA
      have hBt : hasPreReleaseTag b = false := by
        rw [← Bool.not_eq_true]
        exact fun hb => hB ((hasPreReleaseTag_true_iff b).mp hb)
      obtain ⟨ua, va, _, _, _, _, hadrop, _⟩ := hyphen_decomp a.toList ha1 hA
      have hsa : specSuffix a = some va := by
        unfold specSuffix
        rw [hadrop]
      have hsb : specSuffix b = none := specSuffix_of_no_hyphen hB
      rw [hAt, hBt, hsa, hsb]
      simp [intSign]
    · have hAt : hasPreReleaseTag a = false := by
        rw [← Bool.not_eq_true]
        exact fun ha => hA ((hasPreReleaseTag_true_iff a).mp ha)
      have hBt : hasPreReleaseTag b = true := (hasPreReleaseTag_true_iff b).mpr hB
      obtain ⟨ub, vb, _, _, _, _, hbdrop, _⟩ := hyphen_decomp b.toList hb1 hB
      have hsa : specSuffix a = none := specSuffix_of_no_hyphen hA
      have hsb : specSuffix b = some vb := by
        unfold specSuffix
        rw [hbdrop]
      rw [hAt, hBt, hsa, hsb]
      simp [intSign]
    · have hAt : hasPreReleaseTag a = false := by
        rw [← Bool.not_eq_true]
        exact fun ha => hA ((hasPreReleaseTag_true_iff a).mp ha)
      have hBt : hasPreReleaseTag b = false := by
        rw [← Bool.not_eq_true]
        exact fun hb => hB ((hasPreReleaseTag_true_iff b).mp hb)
      have hsa : specSuffix a = none := specSuffix_of_no_hyphen hA
      have hsb : specSuffix b = none := specSuffix_of_no_hyphen hB
      rw [hAt, hBt, hsa, hsb]
      simp [intSign]
  · rw [if_pos (by omega : c ≠ 0)]
    have h1 : ¬c < 0 := by omega
    simp [intSign, h1, hgt]

theorem versionReleaseStats_getD (pts : List DataPoint) (i : Nat)
    (hi : i < (sortedReleases pts).length) :
    (versionReleaseStats pts).getD i default = statsAt pts (sortedReleases pts) i := by
  unfold versionReleaseStats
  exact getD_range_map _ _ _ hi _

instance : IsTotal DataPoint dateLe := ⟨fun a b => le_total a.date b.date⟩

instance : IsTrans DataPoint dateLe := ⟨fun _ _ _ hab hbc => le_trans hab hbc⟩

theorem acceptRevisions_cons_nofield {t : Int} {d : List (String × Int)}
    {rest : List (Int × List (String × Int))} {base : Option Int}
    (hl : d.lookup "downloads" = none) :
    acceptRevisions ((t, d) :: rest) base = acceptRevisions rest base := by
  simp only [acceptRevisions, hl]

theorem acceptRevisions_cons_first {t : Int} {d : List (String × Int)}
    {rest : List (Int × List (String × Int))} {cv : Int}
    (hl : d.lookup "downloads" = some cv) :
    acceptRevisions ((t, d) :: rest) none = (t, d) :: acceptRevisions rest (some cv) := by
  simp only [acceptRevisions, hl]

theorem acceptRevisions_cons_keep {t : Int} {d : List (String × Int)}
    {rest : List (Int × List (String × Int))} {cv b : Int}
    (hl : d.lookup "downloads" = some cv) (hb : b ≤ cv) :
    acceptRevisions ((t, d) :: rest) (some b) = (t, d) :: acceptRevisions rest (some cv) := by
  simp only [acceptRevisions, hl]
  exact if_pos hb

theorem acceptRevisions_cons_drop {t : Int} {d : List (String × Int)}
    {rest : List (Int × List (String × Int))} {cv b : Int}
    (hl : d.lookup "downloads" = some cv) (hb : ¬b ≤ cv) :
    acceptRevisions ((t, d) :: rest) (some b) = acceptRevisions rest (some b) := by
  simp only [acceptRevisions, hl]
  exact if_neg hb

theorem acceptRevisions_sublist :
    ∀ (revs : List (Int × List (String × Int))) (base : Option Int),
      (acceptRevisions revs base).Sublist revs := by
  intro revs
  induction revs with
  | nil => intro base; exact List.Sublist.refl _
  | cons e rest ih =>
    intro base
    obtain ⟨t, d⟩ := e
    cases hl : d.lookup "downloads" with
    | none =>
      rw [acceptRevisions_cons_nofield hl]
      exact (ih base).cons _
    | some cv =>
      cases base with
      | none =>
        rw [acceptRevisions_cons_first hl]
        exact (ih (some cv)).cons₂ _
      | some b =>
        by_cases hb : b ≤ cv
        · rw [acceptRevisions_cons_keep hl hb]
          exact (ih (some cv)).cons₂ _
        · rw [acceptRevisions_cons_drop hl hb]
          exact (ih (some b)).cons _

theorem acceptRevisions_mono :
    ∀ (revs : List (Int × List (String × Int))) (base : Option Int),
      ((acceptRevisions revs base).Pairwise
        (fun e f => fieldOr0 e.2 "downloads" ≤ fieldOr0 f.2 "downloads")) ∧
      (∀ e ∈ acceptRevisions revs base, ∀ v, base = some v → v ≤ fieldOr0 e.2 "downloads") := by
  intro revs
  induction revs with
  | nil =>
    intro base
    exact ⟨List.Pairwise.nil, fun e he => absurd he (by simp [acceptRevisions])⟩
  | cons ef rest ih =>
    intro base
    obtain ⟨t, d⟩ := ef
    cases hl : d.lookup "downloads" with
    | none =>
      rw [acceptRevisions_cons_nofield hl]
      exact ih base
    | some cv =>
      have hfield : fieldOr0 d "downloads" = cv := by
        unfold fieldOr0
        rw [hl]
        rfl
      cases base with
      | none =>
        rw [acceptRevisions_cons_first hl]
        refine ⟨List.Pairwise.cons ?_ (ih (some cv)).1, ?_⟩
        · intro f hf
          rw [hfield]
          exact (ih (some cv)).2 f hf cv rfl
        · intro e _ v hv
          exact absurd hv (by simp)
      | some b =>
        by_cases hb : b ≤ cv
        · rw [acceptRevisions_cons_keep hl hb]
          refine ⟨List.Pairwise.cons ?_ (ih (some cv)).1, ?_⟩
          · intro f hf
            rw [hfield]
            exact (ih (some cv)).2 f hf cv rfl
          · intro e he v hv
            have hvb : b = v := Option.some.inj hv
            rcases List.mem_cons.mp he with rfl | he2
            · rw [hfield]
              omega
            · have := (ih (some cv)).2 e he2 cv rfl
              omega
        · rw [acceptRevisions_cons_drop hl hb]
          exact ih (some b)

/-! ### Claim theorems -/

/-- Claim C1, counterexample: both snapshots of `twoVersionHistory` lack
an explicit `dailyGrowth` and have totals 100 and 150, yet the
normalized second snapshot carries `dailyGrowth = 0`, not the difference
`150 - 100` the claim requires. -/
theorem c1_counterexample :
    (twoVersionHistory.map (fun e => e.2.lookup "dailyGrowth")) = [none, none] ∧
    (dataPoints twoVersionHistory).map (fun p => p.dailyGrowth) = [0, 0] ∧
    (dataPoints twoVersionHistory).map (fun p => p.downloads) = [100, 150] ∧
    ((dataPoints twoVersionHistory).getD 1 default).dailyGrowth ≠
      ((dataPoints twoVersionHistory).getD 1 default).downloads -
        ((dataPoints twoVersionHistory).getD 0 default).downloads := by
  decide

/-- Claim C1 (amended): the Normalizer sorts the parsed snapshots by
timestamp ascending (the output is a date-sorted permutation of the
parsed entries), and a snapshot lacking an explicit `dailyGrowth` gets
the default `0` at every position, including positions `i > 0` — the
difference `totalCount[i] - totalCount[i-1]` is never computed. -/
theorem c1_normalizer_sorts_and_defaults (h : HistoryData) :
    (dataPoints h).Pairwise (fun p q => p.date ≤ q.date) ∧
    (dataPoints h).Perm (h.map (fun e => mkDataPoint e.1 e.2)) ∧
    (∀ t d, (t, d) ∈ h → d.lookup "dailyGrowth" = none →
      (mkDataPoint t d).dailyGrowth = 0 ∧ mkDataPoint t d ∈ dataPoints h) := by
  refine ⟨?_, ?_, ?_⟩
  · exact List.sorted_insertionSort dateLe (h.map (fun e => mkDataPoint e.1 e.2))
  · exact List.perm_insertionSort dateLe _
  · intro t d hmem hlookup
    constructor
    · show fieldOr0 d "dailyGrowth" = 0
      unfold fieldOr0
      rw [hlookup]
      rfl
    · unfold dataPoints
      exact (List.mem_insertionSort dateLe).mpr (List.mem_map.mpr ⟨(t, d), hmem, rfl⟩)

/-- Claim C1, witness for the amended theorem at `twoVersionHistory`. -/
theorem c1_w :
    (mkDataPoint 1 [("downloads", 100), ("1.0.0", 5)]).dailyGrowth = 0 ∧
    mkDataPoint 1 [("downloads", 100), ("1.0.0", 5)] ∈ dataPoints twoVersionHistory :=
  (c1_normalizer_sorts_and_defaults twoVersionHistory).2.2
    1 [("downloads", 100), ("1.0.0", 5)] (by decide) (by decide)

/-- Claim C2, counterexample: in `sameIndexHistory` versions 1.0.1 and
1.0.2 first appear at the same series index, and the superseded release
is assigned `durationDays = 0`, violating the claimed floor of 1. -/
theorem c2_counterexample :
    0 < (versionReleaseStats (dataPoints sameIndexHistory)).length ∧
    ((versionReleaseStats (dataPoints sameIndexHistory)).getD 0 default).durationDays = 0 := by
  decide

/-- Claim C2 (amended): every VersionRelease has `durationDays ≥ 1` —
in particular releases at distinct indices under one day apart get the
floor of 1 via `max 1 (...)` — except a release whose semantically-next
release shares its `firstSeenIndex`, which is assigned
`durationDays = 0`. -/
theorem c2_duration_floor (pts : List DataPoint) (i : Nat)
    (hi : i < (sortedReleases pts).length) :
    1 ≤ ((versionReleaseStats pts).getD i default).durationDays ∨
    (i + 1 < (sortedReleases pts).length ∧
      ((sortedReleases pts).getD (i + 1) default).index =
        ((sortedReleases pts).getD i default).index ∧
      ((versionReleaseStats pts).getD i default).durationDays = 0) := by
  rw [versionReleaseStats_getD pts i hi]
  simp only [statsAt]
  by_cases hcond : i + 1 < (sortedReleases pts).length ∧
      ((sortedReleases pts).getD (i + 1) default).index =
        ((sortedReleases pts).getD i default).index
  · rw [if_pos hcond]
    exact Or.inr ⟨hcond.1, hcond.2, rfl⟩
  · rw [if_neg hcond]
    left
    simp only [normalStats]
    exact le_max_left 1 _

/-- Claim C2, witness for the amended theorem at `sameIndexHistory`. -/
theorem c2_w :
    1 ≤ ((versionReleaseStats (dataPoints sameIndexHistory)).getD 0 default).durationDays ∨
    (0 + 1 < (sortedReleases (dataPoints sameIndexHistory)).length ∧
      ((sortedReleases (dataPoints sameIndexHistory)).getD (0 + 1) default).index =
        ((sortedReleases (dataPoints sameIndexHistory)).getD 0 default).index ∧
      ((versionReleaseStats (dataPoints sameIndexHistory)).getD 0 default).durationDays = 0) :=
  c2_duration_floor (dataPoints sameIndexHistory) 0 (by decide)

/-- Claim C3 (code bug): with an empty accepted series the pipeline does
not reach the report stage with a degenerate empty result.  `dataPoints`
is empty, and the next statement of the script (line 93) reads
`dataPoints[0].date`, a property access on `undefined` that throws a
`TypeError` and aborts the run — modelled here by `oldestDate` returning
`none`.  The script's own comment (lines 204-209) assumes "dataPoints is
non-empty (checked earlier)" although no such check exists. -/
theorem c3_empty_series_crashes :
    dataPoints ([] : HistoryData) = [] ∧
    oldestDate (dataPoints ([] : HistoryData)) = none := by
  decide

/-- Claim C4: when the semantically-next release shares the current
release's `firstSeenIndex`, the engine assigns
`endDownloads = releaseDownloads`, `downloadChange = 0`,
`durationDays = 0` and `avgDailyGrowth = 0`, with no boundary
computation. -/
theorem c4_same_index_supersession (pts : List DataPoint) (i : Nat)
    (hnext : i + 1 < (sortedReleases pts).length)
    (hidx : ((sortedReleases pts).getD (i + 1) default).index =
      ((sortedReleases pts).getD i default).index) :
    ((versionReleaseStats pts).getD i default).endDownloads =
      ((sortedReleases pts).getD i default).downloads ∧
    ((versionReleaseStats pts).getD i default).downloadChange = 0 ∧
    ((versionReleaseStats pts).getD i default).durationDays = 0 ∧
    ((versionReleaseStats pts).getD i default).avgDailyGrowth = 0 := by
  rw [versionReleaseStats_getD pts i (by omega)]
  simp only [statsAt]
  rw [if_pos ⟨hnext, hidx⟩]
  exact ⟨rfl, rfl, rfl, rfl⟩

/-- Claim C4, witness at `sameIndexHistory`. -/
theorem c4_w :
    ((versionReleaseStats (dataPoints sameIndexHistory)).getD 0 default).endDownloads =
      ((sortedReleases (dataPoints sameIndexHistory)).getD 0 default).downloads ∧
    ((versionReleaseStats (dataPoints sameIndexHistory)).getD 0 default).downloadChange = 0 ∧
    ((versionReleaseStats (dataPoints sameIndexHistory)).getD 0 default).durationDays = 0 ∧
    ((versionReleaseStats (dataPoints sameIndexHistory)).getD 0 default).avgDailyGrowth = 0 :=
  c4_same_index_supersession (dataPoints sameIndexHistory) 0 (by decide) (by decide)

/-- Claim C10: a record whose `downloads` or `dailyGrowth` field is
absent is not an error: the parsed snapshot carries `0` for the missing
field, it appears in `dataPoints`, and no record is dropped. -/
theorem c10_missing_fields (h : HistoryData) (t : Int) (d : List (String × Int))
    (hmem : (t, d) ∈ h) :
    (d.lookup "downloads" = none → (mkDataPoint t d).downloads = 0) ∧
    (d.lookup "dailyGrowth" = none → (mkDataPoint t d).dailyGrowth = 0) ∧
    mkDataPoint t d ∈ dataPoints h ∧
    (dataPoints h).length = h.length := by
  refine ⟨?_, ?_, ?_, ?_⟩
  · intro hl
    show fieldOr0 d "downloads" = 0
    unfold fieldOr0
    rw [hl]
    rfl
  · intro hl
    show fieldOr0 d "dailyGrowth" = 0
    unfold fieldOr0
    rw [hl]
    rfl
  · unfold dataPoints
    exact (List.mem_insertionSort dateLe).mpr (List.mem_map.mpr ⟨(t, d), hmem, rfl⟩)
  · unfold dataPoints
    rw [List.length_insertionSort, List.length_map]

/-- Claim C10, witness at `missingFieldsHistory`, whose first record has
neither field. -/
theorem c10_w :
    (List.lookup "downloads" ([] : List (String × Int)) = none →
      (mkDataPoint 1 []).downloads = 0) ∧
    (List.lookup "dailyGrowth" ([] : List (String × Int)) = none →
      (mkDataPoint 1 []).dailyGrowth = 0) ∧
    mkDataPoint 1 [] ∈ dataPoints missingFieldsHistory ∧
    (dataPoints missingFieldsHistory).length = missingFieldsHistory.length :=
  c10_missing_fields missingFieldsHistory 1 [] (by decide)

/-- Claim C5: for a release not superseded at its own index, the
boundary index used is the smallest `firstSeenIndex` strictly greater
than the release's over all discovered releases (`specNextBoundary`),
defaulting to the series length; `endDownloads` is the series total at
that boundary minus one (falling back to the last element were that
index out of range), and `downloadChange = endDownloads -
releaseDownloads`. -/
theorem c5_boundary_resolution (pts : List DataPoint) (i : Nat)
    (hi : i < (sortedReleases pts).length)
    (hnot : ¬(i + 1 < (sortedReleases pts).length ∧
      ((sortedReleases pts).getD (i + 1) default).index =
        ((sortedReleases pts).getD i default).index)) :
    ((versionReleaseStats pts).getD i default).endDownloads =
      (if specNextBoundary (discoveredReleases pts)
          ((sortedReleases pts).getD i default).index pts.length - 1 < pts.length
        then (downloadCounts pts).getD
          (specNextBoundary (discoveredReleases pts)
            ((sortedReleases pts).getD i default).index pts.length - 1) 0
        else (downloadCounts pts).getD (pts.length - 1) 0) ∧
    ((versionReleaseStats pts).getD i default).downloadChange =
      ((versionReleaseStats pts).getD i default).endDownloads -
        ((sortedReleases pts).getD i default).downloads := by
  rw [versionReleaseStats_getD pts i hi]
  simp only [statsAt]
  rw [if_neg hnot]
  set r := (sortedReleases pts).getD i default with hr
  have hrmem : r ∈ sortedReleases pts := by
    rw [hr, List.getD_eq_getElem _ _ hi]
    exact List.getElem_mem hi
  have hrmem2 : r ∈ discoveredReleases pts :=
    (List.mem_insertionSort releaseLe).mp hrmem
  have hrlt : r.index < pts.length := discoveredReleases_index_lt pts r hrmem2
  set nb := specNextBoundary (discoveredReleases pts) r.index pts.length with hnbdef
  have hcode : nextChronoStartIndex (sortedReleases pts) r.index pts.length = nb :=
    nextChrono_sorted_eq_spec pts r.index pts.length
  have hnb_le : nb ≤ pts.length := by
    rw [hnbdef]
    unfold specNextBoundary
    exact foldr_min_le_init _ _
  have hnb_ge1 : 1 ≤ nb := by
    rw [hnbdef]
    unfold specNextBoundary
    rcases foldr_min_mem_or
        (((discoveredReleases pts).map (fun q => q.index)).filter (fun j => r.index < j))
        pts.length with hcase | hcase
    · omega
    · have hflt := List.of_mem_filter hcase
      simp only [decide_eq_true_eq] at hflt
      omega
  simp only [normalStats]
  rw [hcode]
  have hclen : (downloadCounts pts).length = pts.length := by
    unfold downloadCounts
    simp
  have hcond1 : (0 : Int) ≤ (nb : Int) - 1 ∧
      (nb : Int) - 1 < ((downloadCounts pts).length : Int) := by
    rw [hclen]
    constructor <;> [omega; omega]
  rw [if_pos hcond1]
  have htn : ((nb : Int) - 1).toNat = nb - 1 := by omega
  rw [htn]
  have hcond2 : nb - 1 < pts.length := by omega
  rw [if_pos hcond2]
  constructor
  · rfl
  · trivial

/-- Claim C5, witness at `twoVersionHistory`, release at semantic
position 0 (version 1.0.0, boundary at index 1). -/
theorem c5_w :
    ((versionReleaseStats (dataPoints twoVersionHistory)).getD 0 default).endDownloads =
      (if specNextBoundary (discoveredReleases (dataPoints twoVersionHistory))
          ((sortedReleases (dataPoints twoVersionHistory)).getD 0 default).index
          (dataPoints twoVersionHistory).length - 1 < (dataPoints twoVersionHistory).length
        then (downloadCounts (dataPoints twoVersionHistory)).getD
          (specNextBoundary (discoveredReleases (dataPoints twoVersionHistory))
            ((sortedReleases (dataPoints twoVersionHistory)).getD 0 default).index
            (dataPoints twoVersionHistory).length - 1) 0
        else (downloadCounts (dataPoints twoVersionHistory)).getD
          ((dataPoints twoVersionHistory).length - 1) 0) ∧
    ((versionReleaseStats (dataPoints twoVersionHistory)).getD 0 default).downloadChange =
      ((versionReleaseStats (dataPoints twoVersionHistory)).getD 0 default).endDownloads -
        ((sortedReleases (dataPoints twoVersionHistory)).getD 0 default).downloads :=
  c5_boundary_resolution (dataPoints twoVersionHistory) 0 (by decide) (by decide)

/-- Claim C6, counterexample: the identifiers `1.0.0-beta-2` and
`1.0.0-beta-1` have numerically equal bases and lexicographically
distinct suffixes (`beta-2` vs `beta-1`), yet the script's comparison
returns 0 — it only compares `split("-")[1]`, i.e. `beta` with `beta` —
so it disagrees with the claimed lexicographic suffix comparison. -/
theorem c6_counterexample :
    intSign (compareVersions "1.0.0-beta-2" "1.0.0-beta-1") ≠
      specCompareVersions "1.0.0-beta-2" "1.0.0-beta-1" ∧
    compareVersions "1.0.0-beta-2" "1.0.0-beta-1" = 0 ∧
    specSuffix "1.0.0-beta-2" = some "beta-2".toList ∧
    specSuffix "1.0.0-beta-1" = some "beta-1".toList := by
  decide

/-- Claim C6 (amended): for identifiers with at most one hyphen and no
plus sign — so that the whole suffix is the first hyphen-delimited
segment the code compares — the comparison agrees exactly with the
claimed rule (numeric dotted components with missing components as zero,
no-suffix beats suffix, lexicographic suffix tie-break), and the example
list sorts ascending exactly as claimed. -/
theorem c6_version_comparison (a b : String)
    (ha1 : a.toList.count '-' ≤ 1) (ha2 : '+' ∉ a.toList)
    (hb1 : b.toList.count '-' ≤ 1) (hb2 : '+' ∉ b.toList) :
    intSign (compareVersions a b) = specCompareVersions a b ∧
    List.insertionSort (fun x y => compareVersions x y ≤ 0)
        ["2.0.0", "1.9.0-beta", "1.9.0"] = ["1.9.0-beta", "1.9.0", "2.0.0"] :=
  ⟨compareVersions_agrees_spec a b ha1 ha2 hb1 hb2, by decide⟩

/-- Claim C6, witness at a pre-release pair. -/
theorem c6_w :
    intSign (compareVersions "1.2.3-alpha" "1.2.3") =
      specCompareVersions "1.2.3-alpha" "1.2.3" ∧
    List.insertionSort (fun x y => compareVersions x y ≤ 0)
        ["2.0.0", "1.9.0-beta", "1.9.0"] = ["1.9.0-beta", "1.9.0", "2.0.0"] :=
  c6_version_comparison "1.2.3-alpha" "1.2.3" (by decide) (by decide) (by decide) (by decide)

/-- Claim C9: assuming the extractor walks revisions in timestamp order
(spec §4.1 consumes "an ordered sequence of raw revision records"), the
series the downstream stages operate on — `dataPoints` of the accepted
mapping — has non-decreasing `totalCount` across consecutive elements.
The anomaly filter itself is modelled from the spec because
`extract-plugin-stats.js` is not under `src/`. -/
theorem c9_monotone_series (revs : List (Int × List (String × Int)))
    (hts : revs.Pairwise (fun e f => e.1 ≤ f.1)) :
    (dataPoints (acceptRevisions revs none)).Chain'
      (fun p q => p.downloads ≤ q.downloads) := by
  have hsub := acceptRevisions_sublist revs none
  have htsacc : (acceptRevisions revs none).Pairwise (fun e f => e.1 ≤ f.1) :=
    List.Pairwise.sublist hsub hts
  have hmono := (acceptRevisions_mono revs none).1
  have hmap_date : ((acceptRevisions revs none).map
      (fun e => mkDataPoint e.1 e.2)).Pairwise dateLe := by
    refine List.Pairwise.map _ ?_ htsacc
    intro a b hab
    exact hab
  have hid : dataPoints (acceptRevisions revs none) =
      (acceptRevisions revs none).map (fun e => mkDataPoint e.1 e.2) := by
    unfold dataPoints
    exact List.Sorted.insertionSort_eq hmap_date
  rw [hid]
  have hmap_dl : ((acceptRevisions revs none).map
      (fun e => mkDataPoint e.1 e.2)).Pairwise
      (fun p q => p.downloads ≤ q.downloads) := by
    refine List.Pairwise.map _ ?_ hmono
    intro a b hab
    exact hab
  exact hmap_dl.chain'

/-- Claim C9, witness: the spec's anomaly example — totals 100, 250,
90, 300 — yields the accepted monotone series 100, 250, 300. -/
theorem c9_w :
    (dataPoints (acceptRevisions anomalyRevisions none)).Chain'
      (fun p q => p.downloads ≤ q.downloads) ∧
    (dataPoints (acceptRevisions anomalyRevisions none)).map (fun p => p.downloads)
      = [100, 250, 300] :=
  ⟨c9_monotone_series anomalyRevisions (by decide), by decide⟩

/-- Claim C7: for a non-empty series and window 7 or 30, the rolling
average has one element per snapshot, and element `i` is the arithmetic
mean of `dailyGrowth` over snapshots `[max(0, i - w + 1), i]` — a window
of `min w (i + 1)` samples that narrows at the start — rounded to the
nearest integer. -/
theorem c7_rolling_average (w : Nat) (hw : w = 7 ∨ w = 30) (pts : List DataPoint)
    (_hne : pts ≠ []) (i : Nat) (hi : i < pts.length) :
    (rollingAverageData w pts).length = pts.length ∧
    ((rollingAverageData w pts).getD i (0, 0)).2 =
      jsRound ((∑ j ∈ Finset.Icc (i + 1 - min w (i + 1)) i,
          ((pts.getD j default).dailyGrowth : ℚ)) / ((min w (i + 1) : Nat) : ℚ)) := by
  have hw0 : 0 < w := by rcases hw with rfl | rfl <;> omega
  have hdlen : (derivativeData pts).length = pts.length := by
    unfold derivativeData
    simp
  constructor
  · unfold rollingAverageData
    simp [hdlen]
  · unfold rollingAverageData
    rw [getD_range_map _ _ _ (by rw [hdlen]; exact hi) _]
    simp only [rollingAverageAt]
    set s := i + 1 - w with hs
    have hm : i + 1 - s = min w (i + 1) := by omega
    rw [hm]
    have hconv : (((derivativeData pts).drop s).take (min w (i + 1))).map (fun it => it.2)
        = ((pts.drop s).take (min w (i + 1))).map (fun p => p.dailyGrowth) := by
      unfold derivativeData
      rw [← List.map_drop, ← List.map_take, List.map_map]
      rfl
    rw [hconv]
    have hlen2 : (((pts.drop s).take (min w (i + 1))).map
        (fun p => p.dailyGrowth)).length = min w (i + 1) := by
      simp only [List.length_map, List.length_take, List.length_drop]
      omega
    rw [hlen2]
    have hpos : 0 < min w (i + 1) := by omega
    rw [if_pos hpos]
    rw [foldl_add_int, zero_add]
    rw [slice_sum_eq (fun p => p.dailyGrowth) (min w (i + 1)) s pts (by omega)]
    rw [jsRoundDiv_eq_jsRound _ _ (by exact_mod_cast hpos)]
    have hlo : i + 1 - min w (i + 1) = s := by omega
    rw [hlo, ← Nat.Ico_succ_right, Finset.sum_Ico_eq_sum_range]
    have hm2 : i + 1 - s = min w (i + 1) := hm
    rw [hm2]
    congr 1
    push_cast
    rfl

/-- Claim C7, witness: window 7 at index 1 of the growth series
`[10, 20, 30]`, together with the claimed first three outputs
`[10, 15, 20]`. -/
theorem c7_w :
    ((rollingAverageData 7 (dataPoints growthHistory)).length =
        (dataPoints growthHistory).length ∧
      ((rollingAverageData 7 (dataPoints growthHistory)).getD 1 (0, 0)).2 =
        jsRound ((∑ j ∈ Finset.Icc (1 + 1 - min 7 (1 + 1)) 1,
            (((dataPoints growthHistory).getD j default).dailyGrowth : ℚ)) /
          ((min 7 (1 + 1) : Nat) : ℚ))) ∧
    (rollingAverageData7Day (dataPoints growthHistory)).map (fun it => it.2) = [10, 15, 20] ∧
    (rollingAverageData30Day (dataPoints growthHistory)).map (fun it => it.2) = [10, 15, 20] :=
  ⟨c7_rolling_average 7 (Or.inl rfl) (dataPoints growthHistory) (by decide) 1 (by decide),
    by decide, by decide⟩

/-- Claim C8, counterexample: in `twoVersionHistory` version 2.0.0 first
appears at index 1 and its active window (from the VersionRelease
windows) is exactly index 1, yet the scan labels point 1 with the stale
"1.0.0" because "1.0.0" is no longer listed at point 1 and so the
tracker never updates. -/
theorem c8_counterexample :
    (currentVersionLabels (dataPoints twoVersionHistory)).getD 1 none = some "1.0.0" ∧
    claimActiveLabel (dataPoints twoVersionHistory) 1 = some "2.0.0" ∧
    (some "1.0.0" : Option String) ≠ some "2.0.0" := by
  decide

/-- Claim C8 (amended): the label is a running tracker, not a
window-derived value: it only changes at a point listing versions when
no label exists yet or the tracked version is itself listed there.
Consequently, when every snapshot that lists versions lists all versions
seen earlier (cumulative data), the label at every point is a
numerically-greatest version (by the inline dotted comparison) among all
versions seen so far, and it is `none` only before any version
appears. -/
theorem c8_label_is_running_max (pts : List DataPoint)
    (hcum : ∀ l1 p l2, pts = l1 ++ p :: l2 → versionsAt p ≠ [] →
      ∀ v ∈ seenVersions l1, v ∈ versionsAt p)
    (i : Nat) (hi : i < pts.length) :
    ((currentVersionLabels pts).getD i none = none →
      seenVersions (pts.take (i + 1)) = []) ∧
    (∀ v, (currentVersionLabels pts).getD i none = some v →
      v ∈ seenVersions (pts.take (i + 1)) ∧
      ∀ u ∈ seenVersions (pts.take (i + 1)), inlineVersionCmp v u ≤ 0) := by
  rw [currentVersionLabels_eq_labelsFrom, labelsFrom_getD pts none i hi]
  apply trackerInvariant
  intro l1 p l2 heq
  refine hcum l1 p (l2 ++ pts.drop (i + 1)) ?_
  conv_lhs => rw [← List.take_append_drop (i + 1) pts, heq]
  simp

/-- Claim C8, witness for the amended theorem at the cumulative
two-point series. -/
theorem c8_w :
    ((currentVersionLabels cumulativePts).getD 1 none = none →
      seenVersions (cumulativePts.take (1 + 1)) = []) ∧
    (∀ v, (currentVersionLabels cumulativePts).getD 1 none = some v →
      v ∈ seenVersions (cumulativePts.take (1 + 1)) ∧
      ∀ u ∈ seenVersions (cumulativePts.take (1 + 1)), inlineVersionCmp v u ≤ 0) :=
  c8_label_is_running_max cumulativePts (by
    intro l1 p l2 heq hne v hv
    rcases l1 with _ | ⟨a, l1⟩
    · simp [seenVersions] at hv
    · rcases l1 with _ | ⟨b, l1⟩
      · simp only [cumulativePts, List.cons_append, List.nil_append,
          List.cons.injEq] at heq
        obtain ⟨ha, hp, -⟩ := heq
        subst ha
        subst hp
        have hv2 : v = "1.0.0" := by
          simpa [seenVersions, versionsAt] using hv
        subst hv2
        decide
      · have hlen := congrArg List.length heq
        simp [cumulativePts] at hlen) 1 (by decide)

end ReleaseChart
